import Mathlib

/-!
Shallow embedding of the 302_llm_playground client core:
the message store (`src/db/message-store.ts`), the chat generation hook
(`src/hooks/use-chat-generation.ts`) and the message-list view-model merge
(`src/components/playground/message-list.tsx`), together with the external
collaborators they call into: the Dexie table (`src/db/index.ts`, keyed by
`id`, queryable ordered by `timestamp`) and dnd-kit's `arrayMove` helper.

Messages are `PlaygroundMessage` records (`src/stores/playground.ts`):
`{ id, role, content, timestamp }`.
-/

namespace Playground

/-- `'system' | 'user' | 'assistant'` from `src/stores/playground.ts`. -/
inductive Role where
  | system
  | user
  | assistant
deriving DecidableEq, Repr

/-- `PlaygroundMessage` from `src/stores/playground.ts`.  `timestamp` is
optional in the TS type but every message handled by the store operations
under verification carries one (assigned by `addMessage` / reorder), so it
is embedded as a total field. -/
structure Msg where
  id : String
  role : Role
  content : String
  timestamp : Nat
deriving DecidableEq, Repr

/-- Dexie `db.messages.get(id)`: point lookup by primary key `id`. -/
def dbGet (table : List Msg) (id : String) : Option Msg :=
  table.find? (fun r => r.id == id)

/-- Dexie `db.messages.put(msg)`: upsert keyed by primary key `id` —
replaces the record with the same `id`, otherwise appends. -/
def dbPut (table : List Msg) (m : Msg) : List Msg :=
  if table.any (fun r => r.id == m.id) then
    table.map (fun r => if r.id == m.id then m else r)
  else
    table ++ [m]

/-- Dexie `db.messages.bulkDelete(ids)`. -/
def dbBulkDelete (table : List Msg) (ids : List String) : List Msg :=
  table.filter (fun r => !(ids.contains r.id))

/-- Dexie `db.messages.orderBy('timestamp').toArray()`: the table read
back ordered by the `timestamp` index (ascending). -/
def sortByTimestamp (table : List Msg) : List Msg :=
  table.mergeSort (fun a b => decide (a.timestamp ≤ b.timestamp))

/-- JS `Array.prototype.findIndex` specialised to matching on `id`:
first index holding `id`, or `-1` when absent (`message-store.ts`,
`reorderMessages`). -/
def findIndexId (msgs : List Msg) (id : String) : Int :=
  match msgs.findIdx? (fun m => m.id == id) with
  | some i => (i : Int)
  | none => -1

/-- JS `Array.prototype.splice` start-index normalisation: a negative
start counts from the end (clamped below at 0), a non-negative start is
clamped above at the length. -/
def jsSpliceStart (len : Nat) (i : Int) : Nat :=
  if i < 0 then ((len : Int) + i).toNat else min i.toNat len

/-- dnd-kit's `arrayMove(array, from, to)`:
`newArray.splice(to < 0 ? newArray.length + to : to, 0,
 newArray.splice(from < 0 ? newArray.length + from : from, 1)[0])`.
The first argument (`to` normalised against the ORIGINAL length) is
evaluated before the inner removal splice.  When the removal finds no
element (only possible here on an empty input) JS would insert
`undefined`; that case, unreachable in every claim below, is embedded as
returning the removal result unchanged. -/
def arrayMove (l : List α) (i j : Int) : List α :=
  let jRaw : Int := if j < 0 then (l.length : Int) + j else j
  let s1 := jsSpliceStart l.length i
  if h : s1 < l.length then
    let x := l.get ⟨s1, h⟩
    let l1 := l.take s1 ++ l.drop (s1 + 1)
    let s2 := jsSpliceStart l1.length jRaw
    l1.take s2 ++ x :: l1.drop s2
  else l

/-- `newMessages.map((msg, index) => ({ ...msg, timestamp: Date.now() + index }))`
from `reorderMessages`, with `Date.now()` passed in as `now` and the
running array index as `k`. -/
def reassignTimestamps (now : Nat) : Nat → List Msg → List Msg
  | _, [] => []
  | k, m :: rest => { m with timestamp := now + k } :: reassignTimestamps now (k + 1) rest

/-- `editMessage`'s `update: PlaygroundMessage | string` argument. -/
inductive EditUpdate where
  | str (s : String)
  | full (m : Msg)
deriving DecidableEq, Repr

/-- `typeof update === 'string' ? { ...currentMessage, content: update }
: { ...currentMessage, ...update }` (spreading a full record overwrites
every field). -/
def applyUpdate (cur : Msg) : EditUpdate → Msg
  | .str s => { cur with content := s }
  | .full m => m

/-- Sequential-level state of the `MessageStore` singleton: in-memory
cache, the Dexie table, the per-id `editOperations` map (as the list of
ids currently holding an entry), the `isSavingReorder` single-flight
flag, and the log of listener notifications (`notify()` payloads). -/
structure Store where
  messages : List Msg
  dbTable : List Msg
  editOps : List String
  isSavingReorder : Bool
  notifications : List (List Msg)
deriving DecidableEq, Repr

/-- `init()`: reload the cache from durable storage ordered by
`timestamp`, then notify. -/
def initStore (st : Store) : Store :=
  let msgs := sortByTimestamp st.dbTable
  { st with messages := msgs, notifications := st.notifications ++ [msgs] }

/-- `getAllMessages()`: the cache (copied) when non-empty, else the
table ordered by `timestamp`. -/
def getAllMessages (st : Store) : List Msg :=
  if st.messages.length > 0 then st.messages
  else sortByTimestamp st.dbTable

/-- Whether `db.messages.put` succeeds or rejects, an input of the
`editMessage` embedding (C10 concerns the rejecting case). -/
inductive PutResult where
  | ok
  | fail
deriving DecidableEq, Repr

/-- Outcome of one `editMessage` call. -/
inductive EditOutcome where
  | applied
  | skippedNoDb
  | skippedNoCache
  | putFailed
deriving DecidableEq, Repr

/-- One complete `editMessage(id, update)` run from a quiescent store
(no pending operation for `id`, so the initial `await` is skipped): the
operation registers itself in `editOperations`, reads the record from
the table and the cache, merges, attempts the durable `put`, and only on
success updates the cache and notifies; the `finally` clause deletes the
per-id entry on every path. -/
def editMessage (st : Store) (id : String) (update : EditUpdate) (put : PutResult) :
    Store × EditOutcome :=
  let reg := { st with editOps := st.editOps ++ [id] }
  let fin := fun (s : Store) => { s with editOps := s.editOps.filter (fun x => x ≠ id) }
  match dbGet reg.dbTable id with
  | none => (fin reg, .skippedNoDb)
  | some _ =>
    match reg.messages.find? (fun m => m.id == id) with
    | none => (fin reg, .skippedNoCache)
    | some cur =>
      let updated := applyUpdate cur update
      match put with
      | .fail => (fin reg, .putFailed)
      | .ok =>
        let newMsgs := reg.messages.map (fun m => if m.id == id then updated else m)
        (fin { reg with
                dbTable := dbPut reg.dbTable updated,
                messages := newMsgs,
                notifications := reg.notifications ++ [newMsgs] },
         .applied)

/-- `reorderMessages(activeId, overId)` (success path of the durable
writes), with `Date.now()` passed in as `now`: single-flight guard,
`arrayMove` on the two `findIndex` results, optimistic notify, timestamp
reassignment `now + index`, bulk `put`, final notify. -/
def reorderMessages (st : Store) (activeId overId : String) (now : Nat) : Store :=
  if st.isSavingReorder then st
  else
    let newMessages := arrayMove st.messages
      (findIndexId st.messages activeId) (findIndexId st.messages overId)
    let updated := reassignTimestamps now 0 newMessages
    { st with
      messages := updated,
      dbTable := updated.foldl dbPut st.dbTable,
      notifications := st.notifications ++ [newMessages, updated],
      isSavingReorder := false }

/-- `deleteMessagesFrom(id)`: locate `id`'s index (silent return when
absent), bulk-delete it and everything after it from the table, truncate
the cache, notify. -/
def deleteMessagesFrom (st : Store) (id : String) : Store :=
  match st.messages.findIdx? (fun m => m.id == id) with
  | none => st
  | some i =>
    let messagesToDelete := (st.messages.drop i).map (fun m => m.id)
    let kept := st.messages.take i
    { st with
      dbTable := dbBulkDelete st.dbTable messagesToDelete,
      messages := kept,
      notifications := st.notifications ++ [kept] }

/-! ### Aliasing model for `subscribe` / `notify`

`subscribe(listener)` executes `listener(this.messages)` — the internal
array reference itself — while `notify()` executes
`listener(this.messages.map(msg => ({ ...msg })))` — a freshly allocated
array of shallow-copied records.  To express the difference, arrays live
in an explicit heap of cells and the store holds a pointer to its cache
cell; what a listener receives is a pointer. -/

/-- A store together with the heap of array cells; `msgsPtr` is the cell
holding `this.messages`. -/
structure StoreH where
  msgsPtr : Nat
  heap : List (List Msg)
deriving DecidableEq, Repr

/-- Dereference an array cell. -/
def readCell (heap : List (List Msg)) (p : Nat) : List Msg :=
  heap.getD p []

/-- In-place mutation of an array cell (what a subscriber that mutates
the array it received performs). -/
def writeCell (heap : List (List Msg)) (p : Nat) (v : List Msg) : List (List Msg) :=
  heap.set p v

/-- The pointer `subscribe` hands to the freshly registered listener:
`listener(this.messages)` passes the internal cache array itself. -/
def subscribeDelivered (s : StoreH) : Nat :=
  s.msgsPtr

/-- The pointer `notify` hands to each listener: a newly allocated cell
holding `this.messages.map(msg => ({ ...msg }))` (fresh array, each
record shallow-copied — on record values the copy is the identity). -/
def notifyDelivered (s : StoreH) : Nat × StoreH :=
  (s.heap.length,
   { s with heap := s.heap ++
      [(readCell s.heap s.msgsPtr).map (fun m => (⟨m.id, m.role, m.content, m.timestamp⟩ : Msg))] })

/-! ### Generation controller (`use-chat-generation.ts`) -/

/-- The locales the app routes (`src/i18n/routing.ts`). -/
inductive Locale where
  | zh
  | en
  | ja
deriving DecidableEq, Repr

/-- The thrown stream error, as the `catch` block discriminates it:
a string that `JSON.parse`s to an object with an `error` field (whose
localized `message_cn/en/jp` variants and default `message` are carried
as data), a string that fails to parse (or lacks the `error` object, so
the field access throws), or a non-string error. -/
inductive JsError where
  | strJson (locMsgs : List (String × String)) (defaultMsg : Option String)
  | strUnparsable
  | nonString
deriving DecidableEq, Repr

/-- `{ zh: 'cn', en: 'en', ja: 'jp' }[locale]`. -/
def localeKey : Locale → String
  | .zh => "cn"
  | .en => "en"
  | .ja => "jp"

/-- JS truthiness on an optional string: `undefined` and `""` are falsy. -/
def jsTruthy : Option String → Bool
  | none => false
  | some s => s ≠ ""

/-- The toast payload the `catch` block emits for a given error:
`parsedError.error[`message_${key}`] || parsedError.error.message` for a
parsable string error, the localized fallback `t('error.chatFailed')`
(embedded by its key) otherwise.  `none` stands for calling `toast.error`
with an `undefined` message. -/
def errorToast (locale : Locale) : JsError → Option String
  | .strJson locMsgs defaultMsg =>
    let localized := (locMsgs.find? (fun kv => kv.1 == "message_" ++ localeKey locale)).map Prod.snd
    if jsTruthy localized then localized else defaultMsg
  | .strUnparsable => some "error.chatFailed"
  | .nonString => some "error.chatFailed"

/-- How the provider stream terminates after its deltas: graceful end or
a thrown error. -/
inductive StreamEnd where
  | ok
  | err (e : JsError)
deriving DecidableEq, Repr

/-- Result of the `for await` delta loop: accumulated content, number of
deltas pulled from the stream, and whether the stop flag caused an early
return. -/
structure LoopRes where
  content : String
  pulled : Nat
  stopped : Bool
deriving DecidableEq, Repr

/-- The `for await (const delta of readStreamableValue(output))` loop:
for each pulled delta the stop flag is checked first — if set, the call
returns the content accumulated so far without appending the delta in
hand and without pulling further; otherwise the delta is appended to
`contentRef` (and the partial message republished).  `stopFlag i` is
whether `shouldStopRef.current` reads `true` at the check performed for
the `i`-th delta. -/
def genLoop (stopFlag : Nat → Bool) : List String → Nat → String → LoopRes
  | [], i, acc => { content := acc, pulled := i, stopped := false }
  | _d :: rest, i, acc =>
    if stopFlag i then { content := acc, pulled := i + 1, stopped := true }
    else genLoop stopFlag rest (i + 1) (acc ++ _d)

/-- Observable outcome of one `generate(messages, settings)` call: the
resolved value (`some (id, content)` or `null`), the state restored by
the `finally` block, and the toasts emitted. -/
structure GenRun where
  result : Option (String × String)
  isRunning : Bool
  generatingMessage : Option Msg
  toasts : List (Option String)
  pulled : Nat
deriving DecidableEq, Repr

/-- One complete `generate` call over a provider stream that delivers
`deltas` and then terminates as `send`: run the delta loop; an early
stop resolves with the accumulated content; otherwise a graceful end
resolves with the full content and a thrown error is caught, toasted and
resolved as `null`.  The `finally` block always resets
`isRunning`/`generatingMessage`. -/
def generate (msgId : String) (deltas : List String) (send : StreamEnd)
    (stopFlag : Nat → Bool) (locale : Locale) : GenRun :=
  let l := genLoop stopFlag deltas 0 ""
  if l.stopped then
    { result := some (msgId, l.content), isRunning := false,
      generatingMessage := none, toasts := [], pulled := l.pulled }
  else
    match send with
    | .ok =>
      { result := some (msgId, l.content), isRunning := false,
        generatingMessage := none, toasts := [], pulled := l.pulled }
    | .err e =>
      { result := none, isRunning := false,
        generatingMessage := none, toasts := [errorToast locale e], pulled := l.pulled }

/-! ### Small-step model of concurrent `editMessage` calls on one id

JavaScript's event loop is single-threaded and cooperative: an
`editMessage` call runs atomically between its `await` points.  For `n`
calls on the same message id (with the record present in both the table
and the cache throughout, and string updates, so call `k` replaces the
content with the token `k + 1`), each call is a process whose suspension
points are exactly those of the source:

* submission — read `editOperations.get(id)`; if an operation is
  registered, `await` it, else create the own operation (whose body runs
  synchronously up to `await db.messages.get(id)`) and register it;
* resumption from the `await` — create and register the own operation
  (note: the map is NOT re-read here; this is the source's behavior);
* the `db.get` completing — merge with the current cache value and issue
  `db.messages.put` (one atomic segment in the source);
* the `db.put` completing — update the cache, notify, and run the
  `finally` clause deleting the id's map entry.

A schedule picks which process steps next; database completions may be
scheduled in any order (a superset of real completion orders). -/

/-- The record for the edited id, reduced to the fields the race can
distinguish: the content token and one carried-along field (`stamp`)
standing for the rest of the record the read-modify-write copies. -/
structure EMsg where
  content : Nat
  stamp : Nat
deriving DecidableEq, Repr

/-- Program counter of one `editMessage` call. -/
inductive EPc where
  | idle
  | waiting (j : Nat)
  | reading
  | putting (m : EMsg)
  | done
deriving DecidableEq, Repr

/-- Shared state of the race: per-call program counters, the
`editOperations` entry for the id (which call's operation is
registered), the cache and table values of the record, the order in
which the durable writes were applied, and the notification count. -/
structure CState where
  pcs : List EPc
  mapE : Option Nat
  cache : EMsg
  dbv : EMsg
  writes : List Nat
  notifies : Nat
deriving DecidableEq, Repr

/-- The content token call `k` writes (`editMessage(id, String(k+1))`). -/
def updTok (k : Nat) : Nat := k + 1

/-- One step of process `k`, identity when `k` has no enabled step.
Submission is gated so that calls are submitted in index order. -/
def stepChoice (s : CState) (k : Nat) : CState :=
  match s.pcs.getD k .done with
  | .idle =>
    if (List.range k).all (fun j => !(s.pcs.getD j .done == .idle)) then
      match s.mapE with
      | none => { s with pcs := s.pcs.set k .reading, mapE := some k }
      | some j => { s with pcs := s.pcs.set k (.waiting j) }
    else s
  | .waiting j =>
    if s.pcs.getD j .done == .done then
      { s with pcs := s.pcs.set k .reading, mapE := some k }
    else s
  | .reading =>
    { s with pcs := s.pcs.set k (.putting { content := updTok k, stamp := s.cache.stamp }) }
  | .putting m =>
    { s with pcs := s.pcs.set k .done, cache := m, dbv := m,
             writes := s.writes ++ [k], notifies := s.notifies + 1, mapE := none }
  | .done => s

/-- Initial state: `n` calls about to be submitted, record content `0`. -/
def initC (n : Nat) : CState :=
  { pcs := List.replicate n .idle, mapE := none,
    cache := { content := 0, stamp := 7 }, dbv := { content := 0, stamp := 7 },
    writes := [], notifies := 0 }

/-- Run a schedule from the initial state of `n` calls. -/
def runC (n : Nat) (sched : List Nat) : CState :=
  sched.foldl stepChoice (initC n)

/-- An operation body is in flight between its registration and its
completion. -/
def isInFlight : EPc → Bool
  | .reading => true
  | .putting _ => true
  | _ => false

/-- Number of operation bodies in flight for the id. -/
def inFlight (s : CState) : Nat :=
  (s.pcs.filter isInFlight).length

/-- All calls have completed. -/
def allDone (s : CState) : Bool :=
  s.pcs.all (fun pc => pc == .done)

/-- All states reachable (within 9 steps, enough for two calls) from the
two-call initial state. -/
def reach2 : List CState :=
  (fun S => (S ++ S.flatMap (fun s => (List.range 2).map (stepChoice s))).dedup)^[9] [initC 2]

/-- Decidable check over the reachable set of the two-call race: the
set is closed under both processes' steps, program counters stay two,
at most one operation body is ever in flight, and every completed
execution applied both edits in submission order (final content is call
1's token, both writes in order, both notifications delivered). -/
def reach2Check : Bool :=
  reach2.all (fun s =>
    s.pcs.length == 2 &&
    (List.range 2).all (fun k => reach2.contains (stepChoice s k)) &&
    inFlight s ≤ 1 &&
    (!allDone s ||
      (s.cache.content == updTok 1 && s.dbv.content == updTok 1 &&
       s.writes == [0, 1] && s.notifies == 2)))

/-! ### Message-list view-model merge (`message-list.tsx`) -/

/-- `(isRunning && generatingMessage) || (isRegenerating && regeneratingMessage)`:
JS short-circuit on truthiness (a message object is always truthy). -/
def pickGenerating (isRunning : Bool) (gm : Option Msg)
    (isRegenerating : Bool) (rm : Option Msg) : Option Msg :=
  match (if isRunning then gm else none) with
  | some g => some g
  | none => if isRegenerating then rm else none

/-- The `allMessages` memo body: copy the committed list; if there is a
generating message whose id matches a committed entry, replace that
entry in place, otherwise push it at the end. -/
def allMessages (messages : List Msg) (generatingMsg : Option Msg) : List Msg :=
  match generatingMsg with
  | none => messages
  | some g =>
    match messages.findIdx? (fun m => m.id == g.id) with
    | some i => messages.set i g
    | none => messages ++ [g]

/-! ### Helper lemmas -/

theorem set_of_getElem? {α : Type _} {l : List α} {i : Nat} {a : α}
    (h : l[i]? = some a) : l.set i a = l := by
  apply List.ext_getElem?
  intro n
  rw [List.getElem?_set]
  split
  · next hin =>
    subst hin
    have hlt : i < l.length := by
      by_contra hge
      rw [List.getElem?_eq_none (by omega)] at h
      exact Option.noConfusion h
    rw [if_pos hlt]
    exact h.symm
  · rfl

theorem reassign_getElem? (now : Nat) (l : List Msg) :
    ∀ (k i : Nat),
      (reassignTimestamps now k l)[i]? =
        (l[i]?).map (fun m => { m with timestamp := now + k + i }) := by
  induction l with
  | nil => intro k i; simp [reassignTimestamps]
  | cons m rest ih =>
    intro k i
    cases i with
    | zero => simp [reassignTimestamps]
    | succ n =>
      have harith : now + (k + 1) + n = now + k + (n + 1) := by omega
      simp [reassignTimestamps, ih (k + 1) n, harith]

theorem reassign_length (now : Nat) (l : List Msg) :
    ∀ k, (reassignTimestamps now k l).length = l.length := by
  induction l with
  | nil => intro k; rfl
  | cons m rest ih => intro k; simp [reassignTimestamps, ih (k + 1)]

theorem reassign_map_id (now : Nat) (l : List Msg) :
    ∀ k, (reassignTimestamps now k l).map (fun m => m.id) = l.map (fun m => m.id) := by
  induction l with
  | nil => intro k; rfl
  | cons m rest ih => intro k; simp [reassignTimestamps, ih (k + 1)]

theorem reassign_timestamp_ge (now : Nat) (l : List Msg) :
    ∀ k, ∀ m ∈ reassignTimestamps now k l, now + k ≤ m.timestamp := by
  induction l with
  | nil => intro k m hm; simp [reassignTimestamps] at hm
  | cons a rest ih =>
    intro k m hm
    simp only [reassignTimestamps, List.mem_cons] at hm
    rcases hm with rfl | hm
    · simp
    · have := ih (k + 1) m hm
      omega

theorem reassign_sorted (now : Nat) (l : List Msg) :
    ∀ k, List.Pairwise (fun a b : Msg => a.timestamp < b.timestamp)
      (reassignTimestamps now k l) := by
  induction l with
  | nil => intro k; simp [reassignTimestamps]
  | cons a rest ih =>
    intro k
    simp only [reassignTimestamps]
    refine List.Pairwise.cons ?_ (ih (k + 1))
    intro m hm
    have := reassign_timestamp_ge now rest (k + 1) m hm
    simp only
    omega

/-! ### C4 — timestamps strictly increasing after reorder -/

/-- **C4**: after any completed `reorderMessages` call the message at
array index `i` carries timestamp `now + i`, so timestamps are strictly
increasing in array order. -/
theorem c4_reorder_strict_timestamps (st : Store) (a b : String) (now : Nat)
    (hflag : st.isSavingReorder = false) :
    (∀ (i : Nat) (mi : Msg), ((reorderMessages st a b now).messages)[i]? = some mi →
        mi.timestamp = now + i) ∧
    (∀ (i j : Nat) (mi mj : Msg), i < j →
        ((reorderMessages st a b now).messages)[i]? = some mi →
        ((reorderMessages st a b now).messages)[j]? = some mj →
        mi.timestamp < mj.timestamp) := by
  have hmsg : (reorderMessages st a b now).messages =
      reassignTimestamps now 0
        (arrayMove st.messages (findIndexId st.messages a) (findIndexId st.messages b)) := by
    simp [reorderMessages, hflag]
  have hbase : ∀ (i : Nat) (mi : Msg), ((reorderMessages st a b now).messages)[i]? = some mi →
      mi.timestamp = now + i := by
    intro i mi hi
    rw [hmsg, reassign_getElem?] at hi
    cases h : (arrayMove st.messages (findIndexId st.messages a)
        (findIndexId st.messages b))[i]? with
    | none => rw [h] at hi; exact Option.noConfusion hi
    | some m =>
      rw [h] at hi
      simp only [Option.map_some'] at hi
      cases hi
      simp
  refine ⟨hbase, ?_⟩
  intro i j mi mj hij hi hj
  have h1 := hbase i mi hi
  have h2 := hbase j mj hj
  omega

/-! ### C5 — deleteMessagesFrom truncates from the id's index -/

/-- **C5**: when `id` is cached at (first) index `i`, `deleteMessagesFrom`
keeps exactly the strict prefix before `i` (contents and order
untouched), removes the message and everything at or after its index
from cache and durable table, and — when the cache is sorted by
timestamp — everything removed has timestamp greater than or equal to
the target's. -/
theorem c5_delete_messages_from (st : Store) (id : String) (i : Nat) (target : Msg)
    (hfind : st.messages.findIdx? (fun m => m.id == id) = some i)
    (htarget : st.messages[i]? = some target) :
    target.id = id ∧
    (deleteMessagesFrom st id).messages = st.messages.take i ∧
    (∀ j, j < i → ((deleteMessagesFrom st id).messages)[j]? = st.messages[j]?) ∧
    (∀ m ∈ (deleteMessagesFrom st id).messages, m.id ≠ id) ∧
    (deleteMessagesFrom st id).dbTable =
      dbBulkDelete st.dbTable ((st.messages.drop i).map (fun m => m.id)) ∧
    (List.Pairwise (fun x y : Msg => x.timestamp ≤ y.timestamp) st.messages →
      ∀ m ∈ st.messages.drop i, target.timestamp ≤ m.timestamp) := by
  have hspec := List.findIdx?_eq_some_iff_getElem.mp hfind
  obtain ⟨hlt, hp, hbefore⟩ := hspec
  have htget : st.messages[i] = target := by
    have := List.getElem?_eq_getElem hlt
    rw [this] at htarget
    exact Option.some.inj htarget
  have hdel : deleteMessagesFrom st id =
      { st with
        dbTable := dbBulkDelete st.dbTable ((st.messages.drop i).map (fun m => m.id)),
        messages := st.messages.take i,
        notifications := st.notifications ++ [st.messages.take i] } := by
    simp [deleteMessagesFrom, hfind]
  refine ⟨?_, ?_, ?_, ?_, ?_, ?_⟩
  · have : (target.id == id) = true := by rw [← htget]; exact hp
    exact eq_of_beq this
  · rw [hdel]
  · intro j hj
    rw [hdel]
    simp only
    rw [List.getElem?_take]
    rw [if_pos hj]
  · intro m hm
    rw [hdel] at hm
    simp only [List.mem_take_iff_getElem] at hm
    obtain ⟨j, hjlt, hjm⟩ := hm
    have hji : j < i := by omega
    have := hbefore j hji
    intro hcontr
    apply this
    have hji2 : j < st.messages.length := by omega
    have : st.messages[j] = m := by
      have := hjm
      simpa using this
    rw [this, hcontr]
    simp
  · rw [hdel]
  · intro hsorted m hm
    have hdropEq : st.messages[i] :: st.messages.drop (i + 1) = st.messages.drop i :=
      List.getElem_cons_drop st.messages i hlt
    have hsub : (st.messages.drop i).Sublist st.messages := List.drop_sublist i st.messages
    have hpair : List.Pairwise (fun x y : Msg => x.timestamp ≤ y.timestamp)
        (st.messages.drop i) := List.Pairwise.sublist hsub hsorted
    rw [← hdropEq] at hm hpair
    rw [htget] at hm hpair
    rcases List.mem_cons.mp hm with rfl | hm2
    · exact Nat.le_refl _
    · exact (List.pairwise_cons.mp hpair).1 m hm2

/-! ### C8 — view-model merge -/

/-- **C8**: the view-model merge returns the committed list unchanged
when nothing is generating; replaces in place when the generating
message's id matches a committed id (the code's `findIdx?` is `none`
exactly when no committed id matches); appends the generating message as
the trailing entry otherwise; and never duplicates an id. -/
theorem c8_view_model_merge (messages : List Msg) (g : Msg)
    (hnd : (messages.map (fun m => m.id)).Nodup) :
    allMessages messages none = messages ∧
    (messages.findIdx? (fun m => m.id == g.id) = none ↔
      g.id ∉ messages.map (fun m => m.id)) ∧
    (∀ i : Nat, messages.findIdx? (fun m => m.id == g.id) = some i →
      allMessages messages (some g) = messages.set i g) ∧
    (g.id ∉ messages.map (fun m => m.id) →
      allMessages messages (some g) = messages ++ [g]) ∧
    ((allMessages messages (some g)).map (fun m => m.id)).Nodup := by
  have hiff : messages.findIdx? (fun m => m.id == g.id) = none ↔
      g.id ∉ messages.map (fun m => m.id) := by
    rw [List.findIdx?_eq_none_iff]
    simp
  refine ⟨rfl, hiff, ?_, ?_, ?_⟩
  · intro i hfind
    simp [allMessages, hfind]
  · intro hnot
    have hnone := hiff.mpr hnot
    simp [allMessages, hnone]
  · cases hfind : messages.findIdx? (fun m => m.id == g.id) with
    | none =>
      have hnot := hiff.mp hfind
      simp only [allMessages, hfind, List.map_append, List.map_cons, List.map_nil]
      have hperm := List.perm_append_singleton g.id (messages.map (fun m => m.id))
      apply hperm.symm.nodup
      exact List.nodup_cons.mpr ⟨hnot, hnd⟩
    | some i =>
      obtain ⟨hlt, hp, _⟩ := List.findIdx?_eq_some_iff_getElem.mp hfind
      simp only [allMessages, hfind, List.map_set]
      have hidEq : (messages.map (fun m => m.id))[i]? = some g.id := by
        rw [List.getElem?_map, List.getElem?_eq_getElem hlt]
        simp only [Option.map_some']
        have : messages[i].id = g.id := eq_of_beq hp
        rw [this]
      rw [set_of_getElem? hidEq]
      exact hnd

/-! ### C10 — editMessage with failing durable put -/

/-- **C10**: if the durable `put` inside `editMessage` fails, the edit
is atomic in memory — the cache keeps its previous value, no listener
notification is issued, the table is untouched — and the `finally`
clause still removes the per-id pending entry, so later edits to the id
are not blocked. -/
theorem c10_edit_put_failure (st : Store) (id : String) (update : EditUpdate)
    (mdb cur : Msg)
    (hdb : dbGet st.dbTable id = some mdb)
    (hcache : st.messages.find? (fun m => m.id == id) = some cur) :
    (editMessage st id update .fail).2 = .putFailed ∧
    (editMessage st id update .fail).1.messages = st.messages ∧
    (editMessage st id update .fail).1.notifications = st.notifications ∧
    (editMessage st id update .fail).1.dbTable = st.dbTable ∧
    id ∉ (editMessage st id update .fail).1.editOps := by
  refine ⟨?_, ?_, ?_, ?_, ?_⟩ <;>
    simp [editMessage, hdb, hcache, List.mem_filter]

/-! ### C2 — what `subscribe` and `notify` deliver -/

/-- A concrete cached message for the C2 counterexample. -/
def mA : Msg := { id := "m1", role := .user, content := "hi", timestamp := 1 }

/-- A concrete one-message store heap: the cache pointer designates
cell 0. -/
def storeH0 : StoreH := { msgsPtr := 0, heap := [[mA]] }

/-- **C2** counterexample: `subscribe` invokes the newly registered
listener with the internal cache array itself, not a structural copy —
a subscriber that mutates the array it received (here: emptying it)
does alter the store's internal in-memory cache. -/
theorem c2_subscribe_alias_cx :
    readCell (writeCell storeH0.heap (subscribeDelivered storeH0) []) storeH0.msgsPtr ≠
      readCell storeH0.heap storeH0.msgsPtr := by
  decide

theorem map_copy_id (l : List Msg) :
    l.map (fun m => (⟨m.id, m.role, m.content, m.timestamp⟩ : Msg)) = l := by
  induction l with
  | nil => rfl
  | cons a t ih => simp [ih]

/-- **C2** amended: the immediate invocation in `subscribe` passes the
internal array itself (an alias), so only `notify` protects the store:
the array `notify` delivers is a fresh copy equal in value to the cache,
and mutating it leaves the store's internal cache unchanged. -/
theorem c2_subscribe_alias_notify_copy (s : StoreH) (v : List Msg)
    (h : s.msgsPtr < s.heap.length) :
    subscribeDelivered s = s.msgsPtr ∧
    readCell (notifyDelivered s).2.heap (notifyDelivered s).1 =
      readCell s.heap s.msgsPtr ∧
    readCell (writeCell (notifyDelivered s).2.heap (notifyDelivered s).1 v)
      (notifyDelivered s).2.msgsPtr = readCell s.heap s.msgsPtr := by
  refine ⟨rfl, ?_, ?_⟩
  · simp [notifyDelivered, readCell, List.getD_eq_getElem?_getD,
      List.getElem?_append, map_copy_id]
  · simp [notifyDelivered, writeCell, readCell, List.set_append,
      List.getD_eq_getElem?_getD, List.getElem?_append, h]

/-! ### C6 / C7 — generation loop lemmas and theorems -/

theorem genLoop_stop (stopFlag : Nat → Bool) :
    ∀ (l : List String) (k i : Nat) (acc : String),
      (∀ t, t < k → stopFlag (i + t) = false) → stopFlag (i + k) = true →
      k < l.length →
      genLoop stopFlag l i acc =
        { content := (l.take k).foldl (fun a d => a ++ d) acc,
          pulled := i + k + 1, stopped := true } := by
  intro l
  induction l with
  | nil => intro k i acc _ _ hk; simp at hk
  | cons d rest ih =>
    intro k i acc hbefore hk hlen
    cases k with
    | zero =>
      simp only [Nat.add_zero] at hk
      simp [genLoop, hk]
    | succ k2 =>
      have h0 : stopFlag i = false := by
        have := hbefore 0 (Nat.succ_pos k2)
        simpa using this
      have hb2 : ∀ t, t < k2 → stopFlag (i + 1 + t) = false := by
        intro t ht
        have e : i + 1 + t = i + (t + 1) := by omega
        rw [e]
        exact hbefore (t + 1) (by omega)
      have hk2 : stopFlag (i + 1 + k2) = true := by
        have e : i + 1 + k2 = i + (k2 + 1) := by omega
        rw [e]
        exact hk
      have hlen2 : k2 < rest.length := by
        simpa using hlen
      have hrec := ih k2 (i + 1) (acc ++ d) hb2 hk2 hlen2
      simp only [genLoop, h0, Bool.false_eq_true, if_false, hrec,
        List.take_succ_cons, List.foldl_cons]
      have e2 : i + 1 + k2 + 1 = i + (k2 + 1) + 1 := by omega
      rw [e2]

theorem genLoop_no_stop (stopFlag : Nat → Bool) :
    ∀ (l : List String) (i : Nat) (acc : String),
      (∀ t, t < l.length → stopFlag (i + t) = false) →
      genLoop stopFlag l i acc =
        { content := l.foldl (fun a d => a ++ d) acc,
          pulled := i + l.length, stopped := false } := by
  intro l
  induction l with
  | nil => intro i acc _; simp [genLoop]
  | cons d rest ih =>
    intro i acc hflat
    have h0 : stopFlag i = false := by
      have := hflat 0 (by simp)
      simpa using this
    have hb2 : ∀ t, t < rest.length → stopFlag (i + 1 + t) = false := by
      intro t ht
      have e : i + 1 + t = i + (t + 1) := by omega
      rw [e]
      exact hflat (t + 1) (by simpa using Nat.succ_lt_succ ht)
    have hrec := ih (i + 1) (acc ++ d) hb2
    simp only [genLoop, h0, Bool.false_eq_true, if_false, hrec, List.foldl_cons,
      List.length_cons]
    have e2 : i + 1 + rest.length = i + (rest.length + 1) := by omega
    rw [e2]

/-- **C6**: if the stop flag is first observed at the check for delta
`k` (within the stream), `generate` resolves with exactly the
concatenation of the deltas strictly before `k` — the delta in hand is
not appended — having pulled only `k + 1` deltas and no more, whatever
way the upstream stream would have ended (so it never waits for
upstream completion). -/
theorem c6_stop_returns_accumulated (msgId : String) (deltas : List String)
    (send : StreamEnd) (stopFlag : Nat → Bool) (locale : Locale) (k : Nat)
    (hk : stopFlag k = true) (hbefore : ∀ t, t < k → stopFlag t = false)
    (hlen : k < deltas.length) :
    generate msgId deltas send stopFlag locale =
      { result := some (msgId, (deltas.take k).foldl (fun a d => a ++ d) ""),
        isRunning := false, generatingMessage := none, toasts := [],
        pulled := k + 1 } := by
  have hloop := genLoop_stop stopFlag deltas k 0 ""
    (by intro t ht; simpa using hbefore t ht) (by simpa using hk) hlen
  simp [generate, hloop]

/-- **C7**: when the upstream stream raises an error (and no stop
preempted it), `generate` catches it — it still resolves normally —
emits exactly one user-facing toast, resolves `null` so nothing is
committed, and the `finally` block resets the generation state to idle
(`isRunning` false, `generatingMessage` null). -/
theorem c7_stream_error_handled (msgId : String) (deltas : List String)
    (e : JsError) (stopFlag : Nat → Bool) (locale : Locale)
    (hnostop : ∀ t, t < deltas.length → stopFlag t = false) :
    generate msgId deltas (.err e) stopFlag locale =
      { result := none, isRunning := false, generatingMessage := none,
        toasts := [errorToast locale e], pulled := deltas.length } ∧
    (generate msgId deltas (.err e) stopFlag locale).toasts.length = 1 := by
  have hloop := genLoop_no_stop stopFlag deltas 0 ""
    (by intro t ht; simpa using hnostop t ht)
  constructor
  · simp [generate, hloop]
  · simp [generate, hloop]

/-! ### arrayMove characterizations -/

theorem arrayMove_found {α : Type _} (l : List α) (i j : Nat)
    (hi : i < l.length) (hj : j < l.length) :
    arrayMove l (i : Int) (j : Int) =
      (l.take i ++ l.drop (i + 1)).take j ++
        l.get ⟨i, hi⟩ :: (l.take i ++ l.drop (i + 1)).drop j := by
  have hs1 : jsSpliceStart l.length (i : Int) = i := by
    simp only [jsSpliceStart]
    rw [if_neg (by omega)]
    simp only [Int.toNat_natCast]
    omega
  have hl1len : (l.take i ++ l.drop (i + 1)).length = l.length - 1 := by
    simp only [List.length_append, List.length_take, List.length_drop]
    omega
  have hs2 : jsSpliceStart (l.take i ++ l.drop (i + 1)).length (j : Int) = j := by
    simp only [jsSpliceStart, hl1len]
    rw [if_neg (by omega)]
    simp only [Int.toNat_natCast]
    omega
  simp only [arrayMove]
  rw [if_neg (by omega)]
  rw [hs1]
  rw [dif_pos hi]
  rw [hs2]

theorem arrayMove_missing_active {α : Type _} (l : List α) (j : Nat)
    (hne : l ≠ []) (hj : j < l.length) :
    arrayMove l (-1) (j : Int) =
      l.dropLast.take j ++ l.getLast hne :: l.dropLast.drop j := by
  have hpos : 0 < l.length := List.length_pos.mpr hne
  have hs1 : jsSpliceStart l.length (-1) = l.length - 1 := by
    simp only [jsSpliceStart]
    rw [if_pos (by omega)]
    omega
  have hl1 : l.take (l.length - 1) ++ l.drop (l.length - 1 + 1) = l.dropLast := by
    have : l.length - 1 + 1 = l.length := by omega
    rw [this, List.drop_length, List.append_nil, List.dropLast_eq_take]
  have hs2 : jsSpliceStart l.dropLast.length (j : Int) = j := by
    simp only [jsSpliceStart, List.length_dropLast]
    rw [if_neg (by omega)]
    simp only [Int.toNat_natCast]
    omega
  have hget : l.get ⟨l.length - 1, by omega⟩ = l.getLast hne := by
    rw [List.getLast_eq_getElem]
    simp [List.get_eq_getElem]
  simp only [arrayMove]
  rw [if_neg (by omega)]
  rw [hs1]
  rw [dif_pos (by omega : l.length - 1 < l.length)]
  rw [hl1, hs2, hget]

theorem arrayMove_found_getElem {α : Type _} (l : List α) (i j : Nat)
    (hi : i < l.length) (hj : j < l.length) :
    (arrayMove l (i : Int) (j : Int))[j]? = some (l.get ⟨i, hi⟩) := by
  rw [arrayMove_found l i j hi hj]
  have hlen : ((l.take i ++ l.drop (i + 1)).take j).length = j := by
    simp only [List.length_take, List.length_append, List.length_drop]
    omega
  rw [List.getElem?_append]
  rw [if_neg (by omega)]
  rw [hlen, Nat.sub_self]
  simp

theorem arrayMove_found_filter {α : Type _} (l : List α) (p : α → Bool) (i j : Nat)
    (hi : i < l.length) (hj : j < l.length) (hx : p (l.get ⟨i, hi⟩) = false) :
    (arrayMove l (i : Int) (j : Int)).filter p = l.filter p := by
  rw [arrayMove_found l i j hi hj]
  have hsplit : l.take i ++ l.get ⟨i, hi⟩ :: l.drop (i + 1) = l := by
    have h1 := List.getElem_cons_drop l i hi
    calc l.take i ++ l.get ⟨i, hi⟩ :: l.drop (i + 1)
        = l.take i ++ l.drop i := by rw [← h1]; rfl
      _ = l := List.take_append_drop i l
  have hstep1 : List.filter p ((l.take i ++ l.drop (i + 1)).take j ++
      l.get ⟨i, hi⟩ :: (l.take i ++ l.drop (i + 1)).drop j) =
      List.filter p (l.take i ++ l.drop (i + 1)) := by
    rw [List.filter_append]
    simp only [List.filter_cons, hx, Bool.false_eq_true, if_false]
    rw [← List.filter_append, List.take_append_drop]
  have hstep2 : List.filter p l = List.filter p (l.take i ++ l.drop (i + 1)) := by
    conv_lhs => rw [← hsplit]
    rw [List.filter_append]
    simp only [List.filter_cons, hx, Bool.false_eq_true, if_false]
    rw [← List.filter_append]
  rw [hstep1, hstep2]

theorem arrayMove_found_perm {α : Type _} (l : List α) (i j : Nat)
    (hi : i < l.length) (hj : j < l.length) :
    (arrayMove l (i : Int) (j : Int)).Perm l := by
  rw [arrayMove_found l i j hi hj]
  have hsplit : l.take i ++ l.get ⟨i, hi⟩ :: l.drop (i + 1) = l := by
    have h1 := List.getElem_cons_drop l i hi
    calc l.take i ++ l.get ⟨i, hi⟩ :: l.drop (i + 1)
        = l.take i ++ l.drop i := by rw [← h1]; rfl
      _ = l := List.take_append_drop i l
  have h1 : ((l.take i ++ l.drop (i + 1)).take j ++
      l.get ⟨i, hi⟩ :: (l.take i ++ l.drop (i + 1)).drop j).Perm
      (l.get ⟨i, hi⟩ :: ((l.take i ++ l.drop (i + 1)).take j ++
        (l.take i ++ l.drop (i + 1)).drop j)) := List.perm_middle
  rw [List.take_append_drop] at h1
  have h2 : (l.get ⟨i, hi⟩ :: (l.take i ++ l.drop (i + 1))).Perm
      (l.take i ++ l.get ⟨i, hi⟩ :: l.drop (i + 1)) := List.perm_middle.symm
  rw [hsplit] at h2
  exact h1.trans h2

/-! ### C9 — reorder with a missing activeId -/

/-- **C9**: when `activeId` is not the id of any cached message but
`overId` is cached at index `j`, `reorderMessages` is not rejected and
not a no-op guard: `findIndex` yields `-1`, which the splice arithmetic
of `arrayMove` resolves to the last position, so the LAST message is
moved to `overId`'s position; both notifications fire and the
timestamps are then reassigned over this corrupted order. -/
theorem c9_reorder_missing_active (st : Store) (a b : String) (now : Nat) (j : Nat)
    (hflag : st.isSavingReorder = false)
    (ha : st.messages.findIdx? (fun m => m.id == a) = none)
    (hb : st.messages.findIdx? (fun m => m.id == b) = some j)
    (hne : st.messages ≠ []) :
    arrayMove st.messages (findIndexId st.messages a) (findIndexId st.messages b) =
      st.messages.dropLast.take j ++
        st.messages.getLast hne :: st.messages.dropLast.drop j ∧
    (reorderMessages st a b now).messages =
      reassignTimestamps now 0
        (st.messages.dropLast.take j ++
          st.messages.getLast hne :: st.messages.dropLast.drop j) ∧
    (reorderMessages st a b now).notifications =
      st.notifications ++
        [st.messages.dropLast.take j ++
           st.messages.getLast hne :: st.messages.dropLast.drop j,
         reassignTimestamps now 0
           (st.messages.dropLast.take j ++
             st.messages.getLast hne :: st.messages.dropLast.drop j)] := by
  obtain ⟨hjlt, _, _⟩ := List.findIdx?_eq_some_iff_getElem.mp hb
  have hfa : findIndexId st.messages a = -1 := by
    simp [findIndexId, ha]
  have hfb : findIndexId st.messages b = (j : Int) := by
    simp [findIndexId, hb]
  have hkey : arrayMove st.messages (findIndexId st.messages a)
      (findIndexId st.messages b) =
      st.messages.dropLast.take j ++
        st.messages.getLast hne :: st.messages.dropLast.drop j := by
    rw [hfa, hfb]
    exact arrayMove_missing_active st.messages j hne hjlt
  refine ⟨hkey, ?_, ?_⟩
  · simp only [reorderMessages, hflag, Bool.false_eq_true, if_false]
    rw [hkey]
  · simp only [reorderMessages, hflag, Bool.false_eq_true, if_false]
    rw [hkey]

/-! ### Durable bulk-put and reload characterization (for C3) -/

theorem find?_eq_none_of_not_mem_ids {L : List Msg} {a : String}
    (h : a ∉ L.map (fun m => m.id)) :
    L.find? (fun u => u.id == a) = none := by
  rw [List.find?_eq_none]
  intro x hx hcontr
  exact h (List.mem_map.mpr ⟨x, hx, eq_of_beq hcontr⟩)

theorem foldl_dbPut_map :
    ∀ (L T : List Msg),
      (∀ m ∈ L, ∃ r ∈ T, r.id = m.id) →
      ((L.map (fun m => m.id)).Nodup) →
      L.foldl dbPut T =
        T.map (fun r => (L.find? (fun u => u.id == r.id)).getD r) := by
  intro L
  induction L with
  | nil => intro T _ _; simp
  | cons m L2 ih =>
    intro T hL hnd
    have hmem : ∃ r ∈ T, r.id = m.id := hL m (List.mem_cons_self m L2)
    have hany : T.any (fun r => r.id == m.id) = true := by
      obtain ⟨r, hr, hre⟩ := hmem
      exact List.any_eq_true.mpr ⟨r, hr, beq_iff_eq.mpr hre⟩
    have hstep : dbPut T m = T.map (fun r => if r.id == m.id then m else r) := by
      simp [dbPut, hany]
    have hndc : m.id ∉ L2.map (fun x => x.id) ∧ (L2.map (fun x => x.id)).Nodup :=
      List.nodup_cons.mp (by simpa using hnd)
    have hL2 : ∀ u ∈ L2,
        ∃ r ∈ T.map (fun r => if r.id == m.id then m else r), r.id = u.id := by
      intro u hu
      obtain ⟨r, hr, hre⟩ := hL u (List.mem_cons_of_mem _ hu)
      refine ⟨if r.id == m.id then m else r, List.mem_map_of_mem _ hr, ?_⟩
      by_cases hc : (r.id == m.id) = true
      · rw [if_pos hc]
        rw [← eq_of_beq hc]
        exact hre
      · rw [if_neg hc]
        exact hre
    have hrec := ih (T.map (fun r => if r.id == m.id then m else r)) hL2 hndc.2
    rw [List.foldl_cons, hstep, hrec, List.map_map]
    apply List.map_congr_left
    intro r hr
    simp only [Function.comp_apply]
    by_cases hc : (r.id == m.id) = true
    · rw [if_pos hc]
      have hmid : (m.id == r.id) = true := beq_iff_eq.mpr (eq_of_beq hc).symm
      have hfind : List.find? (fun u => u.id == r.id) (m :: L2) = some m :=
        List.find?_cons_of_pos L2 hmid
      rw [hfind]
      simp only [Option.getD_some]
      rw [find?_eq_none_of_not_mem_ids hndc.1]
      rfl
    · rw [if_neg hc]
      have hmid : ¬ (m.id == r.id) = true := by
        intro hcontr
        exact hc (beq_iff_eq.mpr (eq_of_beq hcontr).symm)
      have hfind : List.find? (fun u => u.id == r.id) (m :: L2) =
          List.find? (fun u => u.id == r.id) L2 :=
        List.find?_cons_of_neg L2 hmid
      rw [hfind]

theorem map_find_reassign (now : Nat) :
    ∀ (l : List Msg) (k : Nat),
      ((l.map (fun m => m.id)).Nodup) →
      l.map (fun r =>
        ((reassignTimestamps now k l).find? (fun u => u.id == r.id)).getD r) =
      reassignTimestamps now k l := by
  intro l
  induction l with
  | nil => intro k _; rfl
  | cons a t ih =>
    intro k hnd
    have hndc : a.id ∉ t.map (fun x => x.id) ∧ (t.map (fun x => x.id)).Nodup :=
      List.nodup_cons.mp (by simpa using hnd)
    simp only [reassignTimestamps, List.map_cons]
    congr 1
    · rw [List.find?_cons_of_pos _ (by simp)]
      rfl
    · have hstep : ∀ r ∈ t,
          ((({ a with timestamp := now + k } : Msg) ::
              reassignTimestamps now (k + 1) t).find?
            (fun u => u.id == r.id)).getD r =
          ((reassignTimestamps now (k + 1) t).find? (fun u => u.id == r.id)).getD r := by
        intro r hr
        rw [List.find?_cons_of_neg]
        intro hcontr
        have : a.id = r.id := eq_of_beq hcontr
        exact hndc.1 (this ▸ List.mem_map_of_mem (fun x => x.id) hr)
      rw [List.map_congr_left hstep]
      exact ih (k + 1) hndc.2

instance : IsAntisymm Msg (fun a b : Msg => a.timestamp < b.timestamp) :=
  ⟨fun _ _ h h2 => absurd h2 (Nat.lt_asymm h)⟩

theorem sortByTimestamp_eq (T u : List Msg)
    (hperm : T.Perm u)
    (hsort : List.Pairwise (fun a b : Msg => a.timestamp < b.timestamp) u) :
    sortByTimestamp T = u := by
  have hp1 : (sortByTimestamp T).Perm T := List.mergeSort_perm T _
  have hp2 : (sortByTimestamp T).Perm u := hp1.trans hperm
  have hs1 : List.Pairwise
      (fun a b : Msg => (decide (a.timestamp ≤ b.timestamp)) = true)
      (sortByTimestamp T) := by
    show List.Pairwise _
      (T.mergeSort (fun a b : Msg => decide (a.timestamp ≤ b.timestamp)))
    apply List.sorted_mergeSort
    · intro a b c hab hbc
      simp only [decide_eq_true_eq] at hab hbc ⊢
      omega
    · intro a b
      simp only [Bool.or_eq_true, decide_eq_true_eq]
      omega
  have hsle : List.Pairwise (fun a b : Msg => a.timestamp ≤ b.timestamp)
      (sortByTimestamp T) :=
    hs1.imp (by intro a b h; simpa using h)
  have hndu : List.Pairwise (fun a b : Msg => a.timestamp ≠ b.timestamp) u :=
    hsort.imp (by intro a b h; omega)
  have hnds : List.Pairwise (fun a b : Msg => a.timestamp ≠ b.timestamp)
      (sortByTimestamp T) :=
    (List.Perm.pairwise_iff (by intro x y h; omega) hp2).mpr hndu
  have hlt : List.Pairwise (fun a b : Msg => a.timestamp < b.timestamp)
      (sortByTimestamp T) :=
    (hsle.and hnds).imp (by intro a b h; omega)
  exact List.eq_of_perm_of_sorted hp2 hlt hsort

/-! ### C3 — reorder moves activeId to overId's position and persists -/

/-- **C3**: with both ids cached (first occurrences at indices `i` and
`j`), ids unique, and the durable table in sync with the cache,
`reorderMessages` produces a sequence in which `activeId`'s message
occupies `overId`'s former index `j` while the relative order of all
other messages is preserved; that order (with timestamps reassigned) is
what `getAllMessages` returns afterwards, and the durable table sorted
by timestamp — what a reload (`init`) observes — is exactly the same
sequence. -/
theorem c3_reorder_moves_and_persists (st : Store) (a b : String) (now : Nat)
    (i j : Nat) (x : Msg)
    (hflag : st.isSavingReorder = false)
    (hdb : st.dbTable = st.messages)
    (hnd : (st.messages.map (fun m => m.id)).Nodup)
    (hia : st.messages.findIdx? (fun m => m.id == a) = some i)
    (hjb : st.messages.findIdx? (fun m => m.id == b) = some j)
    (hx : st.messages[i]? = some x) :
    x.id = a ∧
    (arrayMove st.messages (findIndexId st.messages a)
      (findIndexId st.messages b))[j]? = some x ∧
    (arrayMove st.messages (findIndexId st.messages a)
        (findIndexId st.messages b)).filter (fun m => !(m.id == a)) =
      st.messages.filter (fun m => !(m.id == a)) ∧
    (reorderMessages st a b now).messages =
      reassignTimestamps now 0
        (arrayMove st.messages (findIndexId st.messages a)
          (findIndexId st.messages b)) ∧
    ((reorderMessages st a b now).messages).map (fun m => m.id) =
      (arrayMove st.messages (findIndexId st.messages a)
        (findIndexId st.messages b)).map (fun m => m.id) ∧
    getAllMessages (reorderMessages st a b now) =
      (reorderMessages st a b now).messages ∧
    sortByTimestamp ((reorderMessages st a b now).dbTable) =
      (reorderMessages st a b now).messages ∧
    getAllMessages (initStore (reorderMessages st a b now)) =
      (reorderMessages st a b now).messages := by
  obtain ⟨hilt, hpi, _⟩ := List.findIdx?_eq_some_iff_getElem.mp hia
  obtain ⟨hjlt, hpj, _⟩ := List.findIdx?_eq_some_iff_getElem.mp hjb
  have hxg : st.messages.get ⟨i, hilt⟩ = x := by
    rw [List.getElem?_eq_getElem hilt] at hx
    exact Option.some.inj hx
  have hfa : findIndexId st.messages a = (i : Int) := by
    simp [findIndexId, hia]
  have hfb : findIndexId st.messages b = (j : Int) := by
    simp [findIndexId, hjb]
  have hxid : x.id = a := by
    rw [← hxg]
    exact eq_of_beq hpi
  have hmsgs : (reorderMessages st a b now).messages =
      reassignTimestamps now 0
        (arrayMove st.messages (findIndexId st.messages a)
          (findIndexId st.messages b)) := by
    simp [reorderMessages, hflag]
  have hdbt : (reorderMessages st a b now).dbTable =
      (reassignTimestamps now 0
        (arrayMove st.messages (findIndexId st.messages a)
          (findIndexId st.messages b))).foldl dbPut st.dbTable := by
    simp [reorderMessages, hflag]
  have hperm : (arrayMove st.messages (findIndexId st.messages a)
      (findIndexId st.messages b)).Perm st.messages := by
    rw [hfa, hfb]
    exact arrayMove_found_perm st.messages i j hilt hjlt
  have hndNew : ((arrayMove st.messages (findIndexId st.messages a)
      (findIndexId st.messages b)).map (fun m => m.id)).Nodup :=
    (hperm.symm.map (fun m => m.id)).nodup hnd
  have hlenNew : (arrayMove st.messages (findIndexId st.messages a)
      (findIndexId st.messages b)).length = st.messages.length :=
    hperm.length_eq
  have hlenPos : 0 < (reorderMessages st a b now).messages.length := by
    rw [hmsgs, reassign_length, hlenNew]
    omega
  have hsorteq : sortByTimestamp ((reorderMessages st a b now).dbTable) =
      (reorderMessages st a b now).messages := by
    rw [hdbt, hmsgs]
    have hmapid := reassign_map_id now
      (arrayMove st.messages (findIndexId st.messages a)
        (findIndexId st.messages b)) 0
    have hndUpd : ((reassignTimestamps now 0
        (arrayMove st.messages (findIndexId st.messages a)
          (findIndexId st.messages b))).map (fun m => m.id)).Nodup := by
      rw [hmapid]
      exact hndNew
    have hL : ∀ m ∈ reassignTimestamps now 0
        (arrayMove st.messages (findIndexId st.messages a)
          (findIndexId st.messages b)),
        ∃ r ∈ st.dbTable, r.id = m.id := by
      intro m hm
      have hmid : m.id ∈ (reassignTimestamps now 0
          (arrayMove st.messages (findIndexId st.messages a)
            (findIndexId st.messages b))).map (fun x => x.id) :=
        List.mem_map_of_mem _ hm
      rw [hmapid] at hmid
      have hmid2 : m.id ∈ st.messages.map (fun x => x.id) :=
        (hperm.map (fun x => x.id)).mem_iff.mp hmid
      obtain ⟨r, hr, hre⟩ := List.mem_map.mp hmid2
      exact ⟨r, hdb ▸ hr, hre⟩
    have hfold := foldl_dbPut_map
      (reassignTimestamps now 0
        (arrayMove st.messages (findIndexId st.messages a)
          (findIndexId st.messages b)))
      st.dbTable hL hndUpd
    rw [hfold, hdb]
    have heq := map_find_reassign now
      (arrayMove st.messages (findIndexId st.messages a)
        (findIndexId st.messages b)) 0 hndNew
    have hperm2 : (st.messages.map (fun r =>
        ((reassignTimestamps now 0
          (arrayMove st.messages (findIndexId st.messages a)
            (findIndexId st.messages b))).find?
          (fun u => u.id == r.id)).getD r)).Perm
        (reassignTimestamps now 0
          (arrayMove st.messages (findIndexId st.messages a)
            (findIndexId st.messages b))) := by
      have := hperm.symm.map (fun r =>
        ((reassignTimestamps now 0
          (arrayMove st.messages (findIndexId st.messages a)
            (findIndexId st.messages b))).find?
          (fun u => u.id == r.id)).getD r)
      rw [heq] at this
      exact this
    exact sortByTimestamp_eq _ _ hperm2
      (reassign_sorted now
        (arrayMove st.messages (findIndexId st.messages a)
          (findIndexId st.messages b)) 0)
  refine ⟨hxid, ?_, ?_, hmsgs, ?_, ?_, hsorteq, ?_⟩
  · rw [hfa, hfb, arrayMove_found_getElem st.messages i j hilt hjlt, hxg]
  · rw [hfa, hfb]
    exact arrayMove_found_filter st.messages (fun m => !(m.id == a)) i j hilt hjlt
      (by
        have hxg2 : st.messages[i] = x := hxg
        simp [hxg2, hxid])
  · rw [hmsgs, reassign_map_id]
  · simp only [getAllMessages]
    rw [if_pos hlenPos]
  · simp only [initStore, getAllMessages]
    split
    · exact hsorteq
    · exact hsorteq

/-! ### C1 — per-id edit queue: model-checked results -/

theorem reach2Check_true : reach2Check = true := by decide

theorem stepChoice_ge (s : CState) (k : Nat) (h : s.pcs.length ≤ k) :
    stepChoice s k = s := by
  simp [stepChoice, List.getElem?_eq_none h]

theorem reach2_props {s : CState} (hs : s ∈ reach2) :
    s.pcs.length = 2 ∧
    (∀ k, k < 2 → stepChoice s k ∈ reach2) ∧
    inFlight s ≤ 1 ∧
    (allDone s = true →
      s.cache.content = updTok 1 ∧ s.dbv.content = updTok 1 ∧
      s.writes = [0, 1] ∧ s.notifies = 2) := by
  have h := List.all_eq_true.mp reach2Check_true s hs
  simp only [Bool.and_eq_true, Bool.or_eq_true, Bool.not_eq_true',
    List.all_eq_true, List.mem_range, beq_iff_eq, decide_eq_true_eq] at h
  obtain ⟨⟨⟨hlen, hclosed⟩, hflight⟩, hdone⟩ := h
  refine ⟨hlen, ?_, hflight, ?_⟩
  · intro k hk
    have := hclosed k hk
    exact List.elem_iff.mp this
  · intro hAll
    rcases hdone with hcontra | hrest
    · rw [hAll] at hcontra
      exact Bool.noConfusion hcontra
    · obtain ⟨⟨⟨hc, hd⟩, hw⟩, hn⟩ := hrest
      exact ⟨hc, hd, hw, hn⟩

theorem stepChoice_mem_reach2 {s : CState} (hs : s ∈ reach2) (k : Nat) :
    stepChoice s k ∈ reach2 := by
  rcases Nat.lt_or_ge k 2 with hk | hk
  · exact (reach2_props hs).2.1 k hk
  · rw [stepChoice_ge s k (by rw [(reach2_props hs).1]; omega)]
    exact hs

theorem foldl_stepChoice_mem_reach2 (sched : List Nat) :
    ∀ s, s ∈ reach2 → sched.foldl stepChoice s ∈ reach2 := by
  induction sched with
  | nil => intro s hs; exact hs
  | cons k rest ih => intro s hs; exact ih _ (stepChoice_mem_reach2 hs k)

theorem initC_mem_reach2 : initC 2 ∈ reach2 := by decide

theorem runC2_mem_reach2 (sched : List Nat) : runC 2 sched ∈ reach2 :=
  foldl_stepChoice_mem_reach2 sched _ initC_mem_reach2

/-- **C1** (amended): each `editMessage` call awaits the operation
registered for its id at submission time; for two calls on the same id
this serializes them — over every schedule, at most one operation body
is ever in flight, and in every completed execution the edits were
applied in submission (FIFO) order with none dropped: the final cache
and table hold the second call's content, the durable writes happened in
order `[0, 1]`, and both notifications were delivered. -/
theorem c1_two_edits_serialized_fifo (sched : List Nat) :
    inFlight (runC 2 sched) ≤ 1 ∧
    (allDone (runC 2 sched) = true →
      (runC 2 sched).cache.content = updTok 1 ∧
      (runC 2 sched).dbv.content = updTok 1 ∧
      (runC 2 sched).writes = [0, 1] ∧
      (runC 2 sched).notifies = 2) := by
  have h := reach2_props (runC2_mem_reach2 sched)
  exact ⟨h.2.2.1, h.2.2.2⟩

theorem c1_two_edits_serialized_fifo_witness :
    allDone (runC 2 [0, 0, 0, 1, 1, 1]) = true ∧
    inFlight (runC 2 [0, 0, 0, 1, 1, 1]) ≤ 1 ∧
    (runC 2 [0, 0, 0, 1, 1, 1]).cache.content = updTok 1 ∧
    (runC 2 [0, 0, 0, 1, 1, 1]).writes = [0, 1] ∧
    (runC 2 [0, 0, 0, 1, 1, 1]).notifies = 2 := by
  have h := c1_two_edits_serialized_fifo [0, 0, 0, 1, 1, 1]
  have h2 := h.2 (by decide)
  exact ⟨by decide, h.1, h2.1, h2.2.2.1, h2.2.2.2⟩

/-- **C1** counterexample: with three overlapping `editMessage` calls on
one id, the second and third both await the first call's operation (the
per-id map is read only once, at submission); when that operation
completes they both resume and register concurrently running bodies, so
TWO operation bodies are in flight for the same id at once — refuting
"at most one edit mutation in flight" (and with it the non-interleaving
guarantee) for general call sequences.  The schedule is the real
event-loop order: calls 0, 1, 2 submitted back-to-back, call 0's get and
put complete, then calls 1 and 2 resume from their awaits and each
issues its own read. -/
theorem c1_three_edits_two_in_flight_cx :
    inFlight (runC 3 [0, 1, 2, 0, 0, 1, 2]) = 2 := by decide

/-! ### Concrete witnesses -/

/-- Concrete messages (ids `s1`, `u1`, `b1`) for the witnesses. -/
def mS : Msg := { id := "s1", role := .system, content := "sys", timestamp := 10 }

def mU : Msg := { id := "u1", role := .user, content := "hello", timestamp := 11 }

def mB : Msg := { id := "b1", role := .assistant, content := "hey", timestamp := 12 }

/-- A concrete quiescent store whose table mirrors its cache. -/
def stW : Store :=
  { messages := [mS, mU, mB], dbTable := [mS, mU, mB], editOps := [],
    isSavingReorder := false, notifications := [] }

theorem stW_ne_nil : stW.messages ≠ [] := by decide

theorem c2_subscribe_alias_notify_copy_witness :
    storeH0.msgsPtr < storeH0.heap.length ∧
    (subscribeDelivered storeH0 = storeH0.msgsPtr ∧
     readCell (notifyDelivered storeH0).2.heap (notifyDelivered storeH0).1 =
       readCell storeH0.heap storeH0.msgsPtr ∧
     readCell (writeCell (notifyDelivered storeH0).2.heap (notifyDelivered storeH0).1 [])
       (notifyDelivered storeH0).2.msgsPtr = readCell storeH0.heap storeH0.msgsPtr) :=
  ⟨by decide, c2_subscribe_alias_notify_copy storeH0 [] (by decide)⟩

theorem c3_reorder_moves_and_persists_witness :
    stW.messages.findIdx? (fun m => m.id == "u1") = some 1 ∧
    (mU.id = "u1" ∧
     (arrayMove stW.messages (findIndexId stW.messages "u1")
       (findIndexId stW.messages "s1"))[0]? = some mU ∧
     (arrayMove stW.messages (findIndexId stW.messages "u1")
         (findIndexId stW.messages "s1")).filter (fun m => !(m.id == "u1")) =
       stW.messages.filter (fun m => !(m.id == "u1")) ∧
     (reorderMessages stW "u1" "s1" 100).messages =
       reassignTimestamps 100 0
         (arrayMove stW.messages (findIndexId stW.messages "u1")
           (findIndexId stW.messages "s1")) ∧
     ((reorderMessages stW "u1" "s1" 100).messages).map (fun m => m.id) =
       (arrayMove stW.messages (findIndexId stW.messages "u1")
         (findIndexId stW.messages "s1")).map (fun m => m.id) ∧
     getAllMessages (reorderMessages stW "u1" "s1" 100) =
       (reorderMessages stW "u1" "s1" 100).messages ∧
     sortByTimestamp ((reorderMessages stW "u1" "s1" 100).dbTable) =
       (reorderMessages stW "u1" "s1" 100).messages ∧
     getAllMessages (initStore (reorderMessages stW "u1" "s1" 100)) =
       (reorderMessages stW "u1" "s1" 100).messages) :=
  ⟨by decide,
   c3_reorder_moves_and_persists stW "u1" "s1" 100 1 0 mU (by decide) (by decide)
     (by decide) (by decide) (by decide) (by decide)⟩

theorem c4_reorder_strict_timestamps_witness :
    stW.isSavingReorder = false ∧
    ((reorderMessages stW "u1" "s1" 100).messages)[0]? =
      some { id := "u1", role := Role.user, content := "hello", timestamp := 100 } ∧
    ({ id := "u1", role := Role.user, content := "hello", timestamp := 100 } : Msg).timestamp
      = 100 + 0 :=
  ⟨rfl, by decide,
   (c4_reorder_strict_timestamps stW "u1" "s1" 100 rfl).1 0
     { id := "u1", role := Role.user, content := "hello", timestamp := 100 } (by decide)⟩

theorem c5_delete_messages_from_witness :
    stW.messages.findIdx? (fun m => m.id == "u1") = some 1 ∧
    mU.id = "u1" ∧
    (deleteMessagesFrom stW "u1").messages = stW.messages.take 1 ∧
    ((deleteMessagesFrom stW "u1").messages)[0]? = stW.messages[0]? ∧
    (deleteMessagesFrom stW "u1").dbTable =
      dbBulkDelete stW.dbTable ((stW.messages.drop 1).map (fun m => m.id)) := by
  have h := c5_delete_messages_from stW "u1" 1 mU (by decide) (by decide)
  exact ⟨by decide, h.1, h.2.1, h.2.2.1 0 (by decide), h.2.2.2.2.1⟩

theorem c6_stop_returns_accumulated_witness :
    (fun t => decide (2 ≤ t)) 2 = true ∧
    generate "g1" ["He", "llo", "!"] (.err .nonString) (fun t => decide (2 ≤ t)) .en =
      { result := some ("g1", (["He", "llo", "!"].take 2).foldl (fun a d => a ++ d) ""),
        isRunning := false, generatingMessage := none, toasts := [], pulled := 3 } :=
  ⟨by decide,
   c6_stop_returns_accumulated "g1" ["He", "llo", "!"] (.err .nonString)
     (fun t => decide (2 ≤ t)) .en 2 (by decide)
     (by intro t ht; simp only [decide_eq_false_iff_not]; omega) (by decide)⟩

theorem c7_stream_error_handled_witness :
    generate "g1" ["a"] (.err (.strJson [("message_en", "boom")] (some "fb")))
        (fun _ => false) .en =
      { result := none, isRunning := false, generatingMessage := none,
        toasts := [errorToast .en (.strJson [("message_en", "boom")] (some "fb"))],
        pulled := 1 } ∧
    (generate "g1" ["a"] (.err (.strJson [("message_en", "boom")] (some "fb")))
      (fun _ => false) .en).toasts.length = 1 :=
  c7_stream_error_handled "g1" ["a"] (.strJson [("message_en", "boom")] (some "fb"))
    (fun _ => false) .en (by intro t ht; rfl)

theorem c8_view_model_merge_witness :
    (([mS, mU] : List Msg).map (fun m => m.id)).Nodup ∧
    allMessages [mS, mU] none = [mS, mU] ∧
    allMessages [mS, mU] (some mB) = [mS, mU] ++ [mB] ∧
    ((allMessages [mS, mU] (some mB)).map (fun m => m.id)).Nodup := by
  have h := c8_view_model_merge [mS, mU] mB (by decide)
  exact ⟨by decide, h.1, h.2.2.2.1 (by decide), h.2.2.2.2⟩

theorem c9_reorder_missing_active_witness :
    stW.messages.findIdx? (fun m => m.id == "zz") = none ∧
    (arrayMove stW.messages (findIndexId stW.messages "zz")
        (findIndexId stW.messages "s1") =
      stW.messages.dropLast.take 0 ++
        stW.messages.getLast stW_ne_nil :: stW.messages.dropLast.drop 0 ∧
     (reorderMessages stW "zz" "s1" 100).messages =
       reassignTimestamps 100 0
         (stW.messages.dropLast.take 0 ++
           stW.messages.getLast stW_ne_nil :: stW.messages.dropLast.drop 0) ∧
     (reorderMessages stW "zz" "s1" 100).notifications =
       stW.notifications ++
         [stW.messages.dropLast.take 0 ++
            stW.messages.getLast stW_ne_nil :: stW.messages.dropLast.drop 0,
          reassignTimestamps 100 0
            (stW.messages.dropLast.take 0 ++
              stW.messages.getLast stW_ne_nil :: stW.messages.dropLast.drop 0)]) :=
  ⟨by decide,
   c9_reorder_missing_active stW "zz" "s1" 100 0 rfl (by decide) (by decide) stW_ne_nil⟩

theorem c10_edit_put_failure_witness :
    dbGet stW.dbTable "u1" = some mU ∧
    (editMessage stW "u1" (.str "x") .fail).2 = .putFailed ∧
    (editMessage stW "u1" (.str "x") .fail).1.messages = stW.messages ∧
    (editMessage stW "u1" (.str "x") .fail).1.notifications = stW.notifications ∧
    (editMessage stW "u1" (.str "x") .fail).1.dbTable = stW.dbTable ∧
    "u1" ∉ (editMessage stW "u1" (.str "x") .fail).1.editOps := by
  have h := c10_edit_put_failure stW "u1" (.str "x") mU mU (by decide) (by decide)
  exact ⟨by decide, h.1, h.2.1, h.2.2.1, h.2.2.2.1, h.2.2.2.2⟩

end Playground
